import Mathlib

/-!
Verification of the resilient retrieval-and-ranking engine
(`backend/openalex_client.py`, `backend/literature_searcher.py`,
`backend/article_searcher.py`).

Conventions of the embedding:
* JSON payloads are modelled by explicit structures carrying exactly the
  fields the code reads; a missing key is `none`.
* Machine time is modelled in whole seconds as `ℤ` (the code compares
  `total_seconds()` against an integral TTL), sleep durations as `ℚ`.
* Python `set`s of strings are modelled as deduplicated lists; every use in
  the code (membership, cardinality, max-fold, count) is order-independent.
* HTML entity decoding (`html.unescape`) is treated as the identity on the
  already-decoded title strings; no claim depends on entity decoding.
* The transport layer (`requests`) is abstracted by an oracle
  `Nat → Upstream` giving the outcome of each successive HTTP attempt.
-/

/-- JSON object for one work as read by `WorkResult.from_api_response`:
only the fields the code accesses are carried. An authorship entry is
`none` when malformed (not a dict, missing author, etc.), otherwise the
display name. -/
structure WorkJson where
  title : Option String
  publication_date : Option String
  cited_by_count : Option Nat
  doi : Option String
  authorships : List (Option String)
  abstract : Option String
deriving DecidableEq

/-- Body of a parsed 200 response: the optional `results` array (entries may
be JSON null, hence `Option WorkJson`) and the optional `meta` object
(payload irrelevant to every claim). -/
structure ApiData where
  results : Option (List (Option WorkJson))
  meta : Option Nat
deriving DecidableEq

/-- Mirror of the `OpenAlexResponse` dataclass. -/
structure OpenAlexResponse where
  status_code : Nat
  data : ApiData
  error : Option String := none
  meta : Option Nat := none
deriving DecidableEq

/-- Mirror of the `WorkResult` dataclass. -/
structure WorkResult where
  title : String
  publication_date : String
  citations : Nat
  doi : Option String
  authors : List String
  abstract : Option String
deriving DecidableEq

/-- Mirror of `WorkResult.from_api_response`: every field is defaulted when
absent; authors keeps only well-formed, non-empty display names. -/
def WorkResult.from_api_response (data : Option WorkJson) : WorkResult :=
  let d := data.getD ⟨none, none, none, none, [], none⟩
  { title := d.title.getD ""
    publication_date := d.publication_date.getD ""
    citations := d.cited_by_count.getD 0
    doi := d.doi
    authors := d.authorships.filterMap (fun a =>
      match a with
      | some nm => if nm = "" then none else some nm
      | none => none)
    abstract := d.abstract }

/-- Python `str.lower()`, modelled character-wise. -/
def py_lower (s : String) : String :=
  String.mk (s.data.map Char.toLower)

/-- Python `str.strip()` with no argument: drop leading and trailing
whitespace. -/
def py_strip (s : String) : String :=
  String.mk (((s.data.dropWhile Char.isWhitespace).reverse.dropWhile
    Char.isWhitespace).reverse)

/-- Mirror of `work.title.lower().strip() if work.title else ""` in
`OpenAlexResponse.get_works`. -/
def normalized_title (w : WorkResult) : String :=
  if w.title ≠ "" then py_strip (py_lower w.title) else ""

/-- The per-entry loop of `OpenAlexResponse.get_works`: skip JSON nulls,
parse, and keep a work only when its normalized title is non-empty and not
seen before. `seen` models the `seen_titles` set. -/
def get_works_loop : List (Option WorkJson) → List String → List WorkResult
  | [], _ => []
  | none :: rest, seen => get_works_loop rest seen
  | some wd :: rest, seen =>
      let w := WorkResult.from_api_response (some wd)
      let nt := normalized_title w
      if nt ≠ "" ∧ nt ∉ seen then
        w :: get_works_loop rest (nt :: seen)
      else
        get_works_loop rest seen

/-- Mirror of `OpenAlexResponse.get_works`: empty on a truthy `error` or a
missing `results` key, else the deduplicating loop. -/
def OpenAlexResponse.get_works (r : OpenAlexResponse) : List WorkResult :=
  if r.error.getD "" ≠ "" ∨ r.data.results = none then []
  else get_works_loop (r.data.results.getD []) []

/-- Transport-level outcome of one HTTP attempt, abstracting the
`requests` library:
* `success d` — HTTP 200 whose body parses to `d`;
* `malformed` — HTTP 200 whose body is not valid JSON;
* `rateLimited ra` — HTTP 429 with optional `Retry-After` header;
* `httpError s msg` — any other status `s` with extracted error message;
* `netError msg st` — `requests.exceptions.RequestException` whose optional
  attached response carries status `st`;
* `unexpected msg` — any other exception raised during the attempt. -/
inductive Upstream where
  | success (d : ApiData)
  | malformed
  | rateLimited (retryAfter : Option ℚ)
  | httpError (status : Nat) (msg : String)
  | netError (msg : String) (status : Option Nat)
  | unexpected (msg : String)

/-- Observable I/O trace of `_make_request`: the sleeps performed (in
seconds, in order) and the number of HTTP requests issued. -/
structure Trace where
  sleeps : List ℚ
  requests : Nat
deriving DecidableEq

/-- The retry loop of `OpenAlexClient._make_request`. `attempt` is the
Python loop variable; `fuel` is the number of iterations left
(`maxRetries - attempt`). The second component of the result is `none`
exactly when the Python function falls off the end of the `for` loop and
implicitly returns `None`.

Branches, mirroring the source: a 200 parses or yields the
"Invalid JSON response from API" failure; a 429 sleeps `Retry-After`
(fallback `delay * 2`) and continues; any other status returns a failure
immediately; a `RequestException` on the last attempt returns a failure,
otherwise sleeps the linear backoff `delay * (attempt + 1)` followed by the
end-of-loop `delay` sleep; any other exception returns an
"Unexpected error" failure. -/
def make_request_loop (up : Nat → Upstream) (maxRetries : Nat) (delay : ℚ) :
    Nat → Nat → Trace → Trace × Option OpenAlexResponse
  | _, 0, tr => (tr, none)
  | attempt, fuel+1, tr =>
    let tr1 : Trace := { tr with requests := tr.requests + 1 }
    match up attempt with
    | .success d =>
        (tr1, some { status_code := 200, data := d, error := none, meta := d.meta })
    | .malformed =>
        (tr1, some { status_code := 200, data := ⟨none, none⟩,
                     error := some "Invalid JSON response from API" })
    | .rateLimited ra =>
        make_request_loop up maxRetries delay (attempt+1) fuel
          { tr1 with sleeps := tr1.sleeps ++ [ra.getD (delay * 2)] }
    | .httpError s msg =>
        (tr1, some { status_code := s, data := ⟨none, none⟩, error := some msg })
    | .netError msg st =>
        if attempt = maxRetries - 1 then
          (tr1, some { status_code := st.getD 500, data := ⟨none, none⟩,
                       error := some msg })
        else
          make_request_loop up maxRetries delay (attempt+1) fuel
            { tr1 with sleeps := tr1.sleeps ++ [delay * ((attempt : ℚ) + 1), delay] }
    | .unexpected msg =>
        (tr1, some { status_code := 500, data := ⟨none, none⟩,
                     error := some ("Unexpected error: " ++ msg) })

/-- Mirror of `OpenAlexClient._make_request` (default `max_retries = 3`,
`rate_limit_delay = 1.0` at the constructor). -/
def make_request (up : Nat → Upstream) (maxRetries : Nat) (delay : ℚ) :
    Trace × Option OpenAlexResponse :=
  make_request_loop up maxRetries delay 0 maxRetries ⟨[], 0⟩

/-- C1: the claim states that on exhausting its retry budget
`_make_request` always returns a Failure `OpenAlexResponse`, never `None`.
The code violates this: when every attempt is answered with HTTP 429 the
loop body always hits `continue`, the `for` loop ends, and the function
implicitly returns `None` (contradicting its own `-> OpenAlexResponse`
annotation). This theorem evaluates the embedding at that failing input:
three attempts, all rate limited, issue exactly 3 requests and produce
`none` in place of a failure value. -/
theorem c1_exhausted_by_429_returns_none :
    (make_request (fun _ => Upstream.rateLimited none) 3 1).2 = none ∧
    (make_request (fun _ => Upstream.rateLimited none) 3 1).1.requests = 3 := by
  exact ⟨rfl, rfl⟩

/-- C7: for the upstream sequence [429 with Retry-After 2, 429 with
Retry-After 1, 200 with valid JSON], `_make_request` sleeps exactly 2
seconds then exactly 1 second, issues exactly 3 requests and returns the
parsed 200 response; and when the Retry-After header is absent a 429 retry
sleeps the fallback `rate_limit_delay * 2` instead of the linear backoff. -/
theorem c7_rate_limit_backoff :
    (∀ d : ApiData,
      make_request
        (fun n => if n = 0 then Upstream.rateLimited (some 2)
          else if n = 1 then Upstream.rateLimited (some 1)
          else Upstream.success d) 3 1 =
      (⟨[2, 1], 3⟩,
       some { status_code := 200, data := d, error := none, meta := d.meta })) ∧
    (∀ (d : ApiData) (delay : ℚ),
      (make_request
        (fun n => if n = 0 then Upstream.rateLimited none
          else Upstream.success d) 3 delay).1.sleeps = [delay * 2]) := by
  exact ⟨fun d => rfl, fun d delay => rfl⟩

/-- Mirror of the Python stop-word set literal in `_extract_terms` (the
source lists "been" twice; membership is unaffected). -/
def stopwords : List String :=
  ["the", "and", "with", "for", "this", "that", "from", "been",
   "have", "has", "not", "are", "were", "was", "being", "been",
   "can", "could", "will", "would", "should", "may", "might"]

/-- Helper for `py_split`: scan the characters, `acc` holding the current
word reversed; whitespace closes the current word, runs of whitespace
produce nothing. -/
def words_aux : List Char → List Char → List (List Char)
  | [], acc => if acc = [] then [] else [acc.reverse]
  | c :: cs, acc =>
      if c.isWhitespace then
        if acc = [] then words_aux cs [] else acc.reverse :: words_aux cs []
      else words_aux cs (c :: acc)

/-- Python `str.split()` with no argument: split on runs of whitespace,
discarding empty pieces. -/
def py_split (s : String) : List String :=
  (words_aux s.data []).map String.mk

/-- Python `" ".join(l)`. -/
def join_space : List String → String
  | [] => ""
  | [s] => s
  | s :: rest => s ++ " " ++ join_space rest

/-- The token list of `_extract_terms`: lower-case, split on whitespace,
keep tokens longer than 2 characters. -/
def kept_words (text : String) : List String :=
  (py_split (py_lower text)).filter (fun w => 2 < w.length)

/-- The n-gram filter of `_extract_terms`: length strictly above 3 and not
all constituent words stop words. -/
def term_filter (s : String) : Bool :=
  decide (3 < s.length) && !((py_split s).all (fun w => stopwords.contains w))

/-- Mirror of `_extract_terms` (textually identical in
`literature_searcher.py` and `article_searcher.py`); the Python result set
is modelled as a deduplicated list. -/
def extract_terms (text : String) : List String :=
  if text = "" then []
  else
    let words := kept_words text
    let unigrams := words
    let bigrams := (List.range (words.length - 1)).map
      (fun i => join_space ((words.drop i).take 2))
    let trigrams := (List.range (words.length - 2)).map
      (fun i => join_space ((words.drop i).take 3))
    ((unigrams ++ bigrams ++ trigrams).dedup).filter term_filter

theorem join_space_take_one {l : List String} {i : Nat} (h : i < l.length) :
    join_space ((l.drop i).take 1) = l[i] := by
  rw [List.drop_eq_getElem_cons h]
  rfl

/-- C9: a term is returned by `_extract_terms` exactly when it is an
n-gram (n between 1 and 3, sliding window of step 1) over the lower-cased
whitespace-split tokens of length above 2, the n-gram has more than 3
characters, and its constituent words are not all stop words. The
function is a pure function of its input by construction, hence
deterministic. -/
theorem c9_extract_terms_membership (text term : String) :
    term ∈ extract_terms text ↔
      ((∃ n ∈ [1, 2, 3], ∃ i, i + n ≤ (kept_words text).length ∧
          term = join_space (((kept_words text).drop i).take n))
        ∧ term_filter term = true) := by
  by_cases htext : text = ""
  · subst htext
    have hw : kept_words "" = [] := by decide
    simp only [extract_terms, if_pos rfl, hw]
    constructor
    · intro h
      exact absurd h (List.not_mem_nil _)
    · rintro ⟨⟨n, hn, i, hin, -⟩, -⟩
      simp only [List.length_nil, List.mem_cons, List.not_mem_nil, or_false] at hn hin
      omega
  · simp only [extract_terms, if_neg htext, List.mem_filter, List.mem_dedup,
      List.mem_append, List.mem_map, List.mem_range]
    constructor
    · rintro ⟨hsrc, hfil⟩
      refine ⟨?_, hfil⟩
      rcases hsrc with (huni | hbi) | htri
      · rcases List.mem_iff_getElem.mp huni with ⟨i, hi, rfl⟩
        exact ⟨1, by simp, i, by omega, (join_space_take_one hi).symm⟩
      · rcases hbi with ⟨i, hi, rfl⟩
        exact ⟨2, by simp, i, by omega, rfl⟩
      · rcases htri with ⟨i, hi, rfl⟩
        exact ⟨3, by simp, i, by omega, rfl⟩
    · rintro ⟨⟨n, hn, i, hin, rfl⟩, hfil⟩
      refine ⟨?_, hfil⟩
      simp only [List.mem_cons, List.not_mem_nil, or_false] at hn
      rcases hn with rfl | rfl | rfl
      · have hi : i < (kept_words text).length := by omega
        exact Or.inl (Or.inl (by rw [join_space_take_one hi]; exact List.getElem_mem hi))
      · exact Or.inl (Or.inr ⟨i, by omega, rfl⟩)
      · exact Or.inr ⟨i, by omega, rfl⟩

/-- Parsing stage of `get_works`, separated from deduplication: JSON null
entries are skipped, every other entry is parsed by `from_api_response`. -/
def parse_results (rs : List (Option WorkJson)) : List WorkResult :=
  rs.filterMap (fun o => o.map (fun wd => WorkResult.from_api_response (some wd)))

/-- Modelled from the spec words of the deduplicator, for comparison with
the loop in `get_works`: key each record by its normalized title, keep a
record only when the key is non-empty and its first occurrence. -/
def dedup_first_by_title : List WorkResult → List String → List WorkResult
  | [], _ => []
  | w :: rest, seen =>
      if normalized_title w ≠ "" ∧ normalized_title w ∉ seen then
        w :: dedup_first_by_title rest (normalized_title w :: seen)
      else dedup_first_by_title rest seen

theorem get_works_loop_eq (rs : List (Option WorkJson)) :
    ∀ seen, get_works_loop rs seen = dedup_first_by_title (parse_results rs) seen := by
  induction rs with
  | nil => intro seen; rfl
  | cons o rest ih =>
    intro seen
    cases o with
    | none => simpa [get_works_loop, parse_results] using ih seen
    | some wd =>
      simp only [get_works_loop, parse_results, List.filterMap_cons, Option.map_some',
        dedup_first_by_title]
      split
      · exact congrArg _ (ih _)
      · exact ih _

theorem dedup_first_filter (k : String) (hk : k ≠ "") :
    ∀ (l : List WorkResult) (seen : List String),
      (dedup_first_by_title l seen).filter (fun w => normalized_title w == k) =
        if k ∈ seen then [] else
          (l.filter (fun w => normalized_title w == k)).take 1 := by
  intro l
  induction l with
  | nil =>
    intro seen
    simp [dedup_first_by_title]
  | cons w rest ih =>
    intro seen
    by_cases hkw : normalized_title w = k
    · by_cases hseen : k ∈ seen
      · have hc : ¬(normalized_title w ≠ "" ∧ normalized_title w ∉ seen) := by
          rw [hkw]; tauto
        rw [dedup_first_by_title, if_neg hc, ih seen, if_pos hseen, if_pos hseen]
      · have hc : normalized_title w ≠ "" ∧ normalized_title w ∉ seen := by
          rw [hkw]; exact ⟨hk, hseen⟩
        rw [dedup_first_by_title, if_pos hc,
          List.filter_cons_of_pos (by simp [hkw]), ih (normalized_title w :: seen),
          if_pos (by rw [hkw]; exact List.mem_cons_self _ _), if_neg hseen,
          List.filter_cons_of_pos (by simp [hkw])]
        rfl
    · have hmem : (k ∈ normalized_title w :: seen) ↔ k ∈ seen := by
        simp only [List.mem_cons]
        constructor
        · rintro (rfl | h)
          · exact absurd rfl hkw
          · exact h
        · exact Or.inr
      by_cases hc : normalized_title w ≠ "" ∧ normalized_title w ∉ seen
      · rw [dedup_first_by_title, if_pos hc,
          List.filter_cons_of_neg (by simp [hkw]), ih (normalized_title w :: seen),
          if_congr hmem rfl rfl, List.filter_cons_of_neg (by simp [hkw])]
      · rw [dedup_first_by_title, if_neg hc, ih seen,
          List.filter_cons_of_neg (by simp [hkw])]

/-- C3 counterexample: the claim as stated says that among records sharing
a normalized title exactly the first occurrence in input order is kept.
For a record whose title is whitespace only (normalized title empty) the
code keeps nothing at all: this response carries exactly one record yet
`get_works` returns the empty list. -/
theorem c3_counterexample_blank_title_dropped :
    ({ status_code := 200,
       data := ⟨some [some ⟨some " ", none, some 7, none, [], none⟩], none⟩,
       error := none, meta := none } : OpenAlexResponse).get_works = [] ∧
    parse_results [some ⟨some " ", none, some 7, none, [], none⟩] ≠ [] := by
  exact ⟨by decide, by decide⟩

/-- C3 (amended): on an error-free response carrying a results array,
`get_works` equals parsing followed by first-occurrence deduplication on
the normalized (lower-cased, stripped) title, where records with an EMPTY
normalized title are all dropped; and for every non-empty normalized title
k, the survivors with title k are exactly the first record of the input
with title k, in input order, regardless of citation counts. -/
theorem c3_dedup_keeps_first_occurrence :
    (∀ (r : OpenAlexResponse) (rs : List (Option WorkJson)),
        r.error = none → r.data.results = some rs →
        r.get_works = dedup_first_by_title (parse_results rs) []) ∧
    (∀ (l : List WorkResult) (k : String), k ≠ "" →
        (dedup_first_by_title l []).filter (fun w => normalized_title w == k) =
          (l.filter (fun w => normalized_title w == k)).take 1) := by
  constructor
  · intro r rs herr hres
    simp [OpenAlexResponse.get_works, herr, hres, get_works_loop_eq]
  · intro l k hk
    simpa using dedup_first_filter k hk l []

/-- C3 witness: the amended theorem applied to a concrete response holding
a record, its lower-cased duplicate with different citations, and a third
unrelated record, with hypotheses discharged at that input. -/
theorem c3_dedup_keeps_first_occurrence_witness :
    (({ status_code := 200,
        data := ⟨some [some ⟨some "Quantum Error Correction Advances", none, some 50, none, [], none⟩,
                       some ⟨some "quantum error correction advances", none, some 10, none, [], none⟩,
                       some ⟨some "Unrelated Botany Study", none, some 1000, none, [], none⟩], none⟩,
        error := none, meta := none } : OpenAlexResponse).get_works =
      dedup_first_by_title
        (parse_results [some ⟨some "Quantum Error Correction Advances", none, some 50, none, [], none⟩,
                        some ⟨some "quantum error correction advances", none, some 10, none, [], none⟩,
                        some ⟨some "Unrelated Botany Study", none, some 1000, none, [], none⟩]) []) ∧
    ((dedup_first_by_title
        [⟨"Quantum Error Correction Advances", "", 50, none, [], none⟩,
         ⟨"quantum error correction advances", "", 10, none, [], none⟩] []).filter
        (fun w => normalized_title w == "quantum error correction advances") =
      ([(⟨"Quantum Error Correction Advances", "", 50, none, [], none⟩ : WorkResult),
        ⟨"quantum error correction advances", "", 10, none, [], none⟩].filter
        (fun w => normalized_title w == "quantum error correction advances")).take 1) := by
  exact ⟨c3_dedup_keeps_first_occurrence.1 _ _ rfl rfl,
         c3_dedup_keeps_first_occurrence.2 _ _ (by decide)⟩

theorem get_works_loop_titles :
    ∀ (rs : List (Option WorkJson)) (seen : List String) (w : WorkResult),
      w ∈ get_works_loop rs seen → normalized_title w ≠ "" := by
  intro rs
  induction rs with
  | nil =>
    intro seen w h
    exact absurd h (List.not_mem_nil _)
  | cons o rest ih =>
    intro seen w h
    cases o with
    | none => exact ih seen w h
    | some wd =>
      simp only [get_works_loop] at h
      by_cases hc : normalized_title (WorkResult.from_api_response (some wd)) ≠ "" ∧
          normalized_title (WorkResult.from_api_response (some wd)) ∉ seen
      · rw [if_pos hc] at h
        rcases List.mem_cons.mp h with rfl | hmem
        · exact hc.1
        · exact ih _ w hmem
      · rw [if_neg hc] at h
        exact ih _ w h

/-- C10: every work returned by `get_works` has a non-empty normalized
(lower-cased, stripped) title; a record whose title is empty or whitespace
only never appears in the returned list, even though the `WorkResult`
dataclass itself permits an empty title. -/
theorem c10_get_works_titles_nonempty (r : OpenAlexResponse) (w : WorkResult)
    (hw : w ∈ r.get_works) : normalized_title w ≠ "" := by
  simp only [OpenAlexResponse.get_works] at hw
  by_cases hguard : r.error.getD "" ≠ "" ∨ r.data.results = none
  · rw [if_pos hguard] at hw
    exact absurd hw (List.not_mem_nil _)
  · rw [if_neg hguard] at hw
    exact get_works_loop_titles _ _ w hw

/-- C10 witness: the theorem applied to a concrete response whose single
record has a real title. -/
theorem c10_get_works_titles_nonempty_witness :
    normalized_title (WorkResult.from_api_response
      (some ⟨some "Quantum Advances", none, some 3, none, [], none⟩)) ≠ "" :=
  c10_get_works_titles_nonempty
    { status_code := 200,
      data := ⟨some [some ⟨some "Quantum Advances", none, some 3, none, [], none⟩], none⟩,
      error := none, meta := none }
    (WorkResult.from_api_response
      (some ⟨some "Quantum Advances", none, some 3, none, [], none⟩))
    (by decide)

/-- Does the second character list start with the first one. -/
def list_starts_with : List Char → List Char → Bool
  | [], _ => true
  | _ :: _, [] => false
  | a :: as, b :: bs => a == b && list_starts_with as bs

/-- Contiguous-substring test on character lists. -/
def list_has_sub (needle : List Char) : List Char → Bool
  | [] => needle.isEmpty
  | c :: t => list_starts_with needle (c :: t) || list_has_sub needle t

/-- Python `needle in hay` on strings. -/
def py_in (needle hay : String) : Bool :=
  list_has_sub needle.data hay.data

/-- The per-pair similarity of `_calculate_relevance` in
`literature_searcher.py`: substring one way scores the length ratio, the
other way the inverse ratio, neither way zero. -/
def term_similarity (qt wt : String) : ℚ :=
  if py_in (py_lower qt) (py_lower wt) then (qt.length : ℚ) / (wt.length : ℚ)
  else if py_in (py_lower wt) (py_lower qt) then (wt.length : ℚ) / (qt.length : ℚ)
  else 0

/-- Mirror of `_extract_terms_from_work`: the union of the term sets of a
truthy title and a truthy abstract. -/
def extract_terms_from_work (w : WorkResult) : List String :=
  ((if w.title ≠ "" then extract_terms w.title else []) ++
   (match w.abstract with
    | some a => if a ≠ "" then extract_terms a else []
    | none => [])).dedup

/-- The matching test of the coverage count in `_calculate_relevance`:
a work term matches when some query term contains it or is contained in
it (case-insensitively). -/
def matched_pred (queryTerms : List String) (term : String) : Bool :=
  queryTerms.any (fun qt =>
    py_in (py_lower qt) (py_lower term) || py_in (py_lower term) (py_lower qt))

/-- Mirror of `LiteratureSearcher._calculate_relevance`. `queryTerms`
models the Python set of lower-cased query terms as a deduplicated list.
Returns the topic-match map (query term to best similarity above 0.5) and
the relevance score `0.85 * coverage + 0.15 * min(1, citations/200)`,
zero when there are no query terms. -/
def calculate_relevance (w : WorkResult) (queryTerms : List String) :
    List (String × ℚ) × ℚ :=
  let work_terms := extract_terms_from_work w
  let topic_matches := queryTerms.filterMap (fun qt =>
    let best := work_terms.foldl (fun acc wt => max acc (term_similarity qt wt)) 0
    if (0.5 : ℚ) < best then some (qt, best) else none)
  let relevance :=
    if queryTerms ≠ [] then
      let matching := (work_terms.filter (matched_pred queryTerms)).length
      let score := min 1 ((matching : ℚ) / (queryTerms.length : ℚ))
      (0.85 : ℚ) * score + (0.15 : ℚ) * min 1 ((w.citations : ℚ) / 200)
    else 0
  (topic_matches, relevance)

theorem relevance_blend_mono (s : ℚ) {c c' : Nat} (h : c ≤ c') :
    (0.85 : ℚ) * s + (0.15 : ℚ) * min 1 ((c : ℚ) / 200) ≤
      (0.85 : ℚ) * s + (0.15 : ℚ) * min 1 ((c' : ℚ) / 200) := by
  have hc : (c : ℚ) ≤ (c' : ℚ) := by exact_mod_cast h
  have hmin : min 1 ((c : ℚ) / 200) ≤ min 1 ((c' : ℚ) / 200) :=
    min_le_min le_rfl (by gcongr)
  linarith

/-- C4: holding the title and the abstract of a work fixed (hence its
extracted terms and topic matches), increasing the citation count never
decreases the relevance score computed by `_calculate_relevance`. -/
theorem c4_relevance_monotone_in_citations (w : WorkResult) (q : List String)
    (c c' : Nat) (h : c ≤ c') :
    (calculate_relevance { w with citations := c } q).2 ≤
      (calculate_relevance { w with citations := c' } q).2 := by
  by_cases hq : q = []
  · simp [calculate_relevance, hq]
  · simp only [calculate_relevance, if_pos hq]
    exact relevance_blend_mono _ h

/-- C4 witness: the monotonicity theorem applied at a concrete work and
query, citations 0 against 150. -/
theorem c4_relevance_monotone_in_citations_witness :
    (0 : Nat) ≤ 150 ∧
    (calculate_relevance
        { title := "Quantum Computing Advances", publication_date := "",
          citations := 0, doi := none, authors := [],
          abstract := some "quantum error correction" } ["quantum"]).2 ≤
      (calculate_relevance
        { title := "Quantum Computing Advances", publication_date := "",
          citations := 150, doi := none, authors := [],
          abstract := some "quantum error correction" } ["quantum"]).2 := by
  refine ⟨by decide, ?_⟩
  exact c4_relevance_monotone_in_citations
    { title := "Quantum Computing Advances", publication_date := "",
      citations := 0, doi := none, authors := [],
      abstract := some "quantum error correction" } ["quantum"] 0 150 (by decide)

/-- One entry of the result cache: the stored value and its creation time
(`cached_at`, seconds). -/
structure CacheItem (α : Type) where
  result : α
  cached_at : ℤ
deriving DecidableEq

/-- The `result_cache` dict, in insertion order; the stored value type is
a parameter because the cache code never inspects it. -/
abbrev Cache (α : Type) := List (String × CacheItem α)

def cache_keys {α : Type} (c : Cache α) : List String :=
  c.map Prod.fst

/-- Python dict invariant: keys occur at most once. -/
def keys_unique {α : Type} (c : Cache α) : Prop :=
  (cache_keys c).Nodup

/-- Python dict assignment `d[k] = v`: overwrite in place when the key
exists (a dict keeps the original insertion position), else append. -/
def dict_insert {α : Type} : Cache α → String → CacheItem α → Cache α
  | [], k, it => [(k, it)]
  | e :: t, k, it => if e.1 = k then (k, it) :: t else e :: dict_insert t k it

/-- Python `k in d` plus `d[k]` for the cache dict. -/
def dict_lookup {α : Type} : Cache α → String → Option (CacheItem α)
  | [], _ => none
  | e :: t, k => if e.1 = k then some e.2 else dict_lookup t k

/-- Mirror of `_get_from_cache`: a hit only when the key is present and
`now - cached_at < duration * 3600`; the function reads the dict and never
mutates it. -/
def get_from_cache {α : Type} (c : Cache α) (duration : ℤ) (now : ℤ)
    (k : String) : Option α :=
  match dict_lookup c k with
  | some it => if now - it.cached_at < duration * 3600 then some it.result else none
  | none => none

/-- Comparison used by the eviction sort of `_add_to_cache` (Python
`sorted` keyed by `cached_at`; both sorts are stable). -/
def by_age {α : Type} (a b : String × CacheItem α) : Bool :=
  decide (a.2.cached_at ≤ b.2.cached_at)

/-- The keys selected for removal by `_add_to_cache`:
`sorted(cache.keys(), key=cached_at)[:10]`. -/
def oldest_keys {α : Type} (c1 : Cache α) : List String :=
  ((c1.mergeSort by_age).take 10).map Prod.fst

/-- Mirror of `_add_to_cache`: insert or overwrite; then, when the size
exceeds 100, delete the 10 entries whose creation time sorts oldest. -/
def add_to_cache {α : Type} (c : Cache α) (k : String) (v : α) (now : ℤ) :
    Cache α :=
  let c1 := dict_insert c k ⟨v, now⟩
  if 100 < c1.length then
    c1.filter (fun e => decide (e.1 ∉ oldest_keys c1))
  else c1

theorem by_age_le {α : Type} (a b : String × CacheItem α) :
    by_age a b = true ↔ a.2.cached_at ≤ b.2.cached_at := by
  simp [by_age]

theorem by_age_trans {α : Type} (a b c : String × CacheItem α)
    (hab : by_age a b = true) (hbc : by_age b c = true) : by_age a c = true := by
  rw [by_age_le] at *
  exact le_trans hab hbc

theorem by_age_total {α : Type} (a b : String × CacheItem α) :
    (by_age a b || by_age b a) = true := by
  rcases le_total a.2.cached_at b.2.cached_at with h | h
  · simp [by_age_le, h]
  · simp [by_age_le, h]

theorem dict_lookup_insert {α : Type} (c : Cache α) (k : String) (it : CacheItem α) :
    dict_lookup (dict_insert c k it) k = some it := by
  induction c with
  | nil => simp [dict_insert, dict_lookup]
  | cons e t ih =>
    by_cases h : e.1 = k
    · simp [dict_insert, dict_lookup, h]
    · simp [dict_insert, dict_lookup, h, ih]

theorem mem_dict_insert {α : Type} {c : Cache α} {k : String} {it : CacheItem α}
    {e : String × CacheItem α} (h : e ∈ dict_insert c k it) :
    e = (k, it) ∨ e ∈ c := by
  induction c with
  | nil =>
    simp only [dict_insert, List.mem_singleton] at h
    exact Or.inl h
  | cons f t ih =>
    by_cases hf : f.1 = k
    · rw [dict_insert, if_pos hf] at h
      rcases List.mem_cons.mp h with rfl | hmem
      · exact Or.inl rfl
      · exact Or.inr (List.mem_cons_of_mem _ hmem)
    · rw [dict_insert, if_neg hf] at h
      rcases List.mem_cons.mp h with rfl | hmem
      · exact Or.inr (List.mem_cons_self _ _)
      · rcases ih hmem with h1 | h2
        · exact Or.inl h1
        · exact Or.inr (List.mem_cons_of_mem _ h2)

theorem dict_insert_of_not_mem {α : Type} {c : Cache α} {k : String}
    (it : CacheItem α) (h : k ∉ cache_keys c) :
    dict_insert c k it = c ++ [(k, it)] := by
  induction c with
  | nil => rfl
  | cons e t ih =>
    simp only [cache_keys, List.map_cons, List.mem_cons, not_or] at h
    rw [dict_insert, if_neg (fun he => h.1 he.symm), ih (by simpa [cache_keys] using h.2)]
    rfl

theorem cache_keys_insert_of_mem {α : Type} {c : Cache α} {k : String}
    (it : CacheItem α) (h : k ∈ cache_keys c) :
    cache_keys (dict_insert c k it) = cache_keys c := by
  induction c with
  | nil => simp [cache_keys] at h
  | cons e t ih =>
    by_cases he : e.1 = k
    · simp [dict_insert, he, cache_keys]
    · simp only [cache_keys, List.map_cons, List.mem_cons] at h
      rcases h with h | h
      · exact absurd h.symm he
      · simp only [dict_insert, if_neg he, cache_keys, List.map_cons]
        rw [show List.map Prod.fst (dict_insert t k it) = cache_keys (dict_insert t k it) from rfl,
          ih h]
        rfl

theorem keys_unique_insert {α : Type} {c : Cache α} (k : String) (it : CacheItem α)
    (hu : keys_unique c) : keys_unique (dict_insert c k it) := by
  by_cases h : k ∈ cache_keys c
  · unfold keys_unique
    rw [cache_keys_insert_of_mem it h]
    exact hu
  · unfold keys_unique
    rw [dict_insert_of_not_mem it h]
    unfold cache_keys at *
    rw [List.map_append]
    rw [List.nodup_append]
    refine ⟨hu, List.nodup_singleton _, ?_⟩
    intro a ha hb
    simp only [List.map_cons, List.map_nil, List.mem_singleton] at hb
    subst hb
    exact h ha

theorem length_dict_insert_le {α : Type} (c : Cache α) (k : String) (it : CacheItem α) :
    (dict_insert c k it).length ≤ c.length + 1 := by
  induction c with
  | nil => simp [dict_insert]
  | cons e t ih =>
    by_cases h : e.1 = k
    · simp only [dict_insert, if_pos h, List.length_cons]
      omega
    · simp only [dict_insert, if_neg h, List.length_cons]
      omega

theorem mem_lookup_unique {α : Type} {c : Cache α} {k : String} {it : CacheItem α}
    (hu : keys_unique c) (hm : (k, it) ∈ c) : dict_lookup c k = some it := by
  induction c with
  | nil => exact absurd hm (List.not_mem_nil _)
  | cons e t ih =>
    have hu' : e.1 ∉ cache_keys t ∧ keys_unique t := by
      unfold keys_unique cache_keys at hu ⊢
      simpa using List.nodup_cons.mp hu
    rcases List.mem_cons.mp hm with rfl | hmem
    · simp [dict_lookup]
    · have hk : k ∈ cache_keys t := by
        unfold cache_keys
        exact List.mem_map_of_mem Prod.fst hmem
      have hne : e.1 ≠ k := fun he => hu'.1 (he ▸ hk)
      rw [dict_lookup, if_neg hne]
      exact ih hu'.2 hmem

theorem eq_of_mem_fst {α : Type} {c : Cache α} {p q : String × CacheItem α}
    (hu : keys_unique c) (hp : p ∈ c) (hq : q ∈ c) (h : p.1 = q.1) : p = q := by
  induction c with
  | nil => exact absurd hp (List.not_mem_nil _)
  | cons e t ih =>
    have hu' : e.1 ∉ cache_keys t ∧ keys_unique t := by
      unfold keys_unique cache_keys at hu ⊢
      simpa using List.nodup_cons.mp hu
    rcases List.mem_cons.mp hp with rfl | hpm
    · rcases List.mem_cons.mp hq with rfl | hqm
      · rfl
      · exact absurd (h ▸ List.mem_map_of_mem Prod.fst hqm) hu'.1
    · rcases List.mem_cons.mp hq with rfl | hqm
      · exact absurd (h ▸ List.mem_map_of_mem Prod.fst hpm) hu'.1
      · exact ih hu'.2 hpm hqm

theorem keys_unique_sublist {α : Type} {c d : Cache α} (h : d.Sublist c)
    (hu : keys_unique c) : keys_unique d :=
  List.Nodup.sublist (List.Sublist.map Prod.fst h) hu

theorem dict_lookup_mem {α : Type} {c : Cache α} {k : String} {it : CacheItem α}
    (h : dict_lookup c k = some it) : (k, it) ∈ c := by
  induction c with
  | nil => simp [dict_lookup] at h
  | cons e t ih =>
    by_cases he : e.1 = k
    · rw [dict_lookup, if_pos he] at h
      have : e = (k, it) := by
        cases e
        simp_all
      rw [← this]
      exact List.mem_cons_self _ _
    · rw [dict_lookup, if_neg he] at h
      exact List.mem_cons_of_mem _ (ih h)

theorem sorted_by_age {α : Type} (c1 : Cache α) :
    List.Pairwise (fun a b => by_age a b = true) (c1.mergeSort by_age) :=
  List.sorted_mergeSort by_age_trans by_age_total c1

theorem mem_take_of_key_oldest {α : Type} (c1 : Cache α) (hu : keys_unique c1)
    {e : String × CacheItem α} (he : e ∈ c1) (h : e.1 ∈ oldest_keys c1) :
    e ∈ (c1.mergeSort by_age).take 10 := by
  rcases List.mem_map.mp h with ⟨p, hp, hpe⟩
  have hpc : p ∈ c1 := (List.mergeSort_perm c1 by_age).mem_iff.mp (List.mem_of_mem_take hp)
  have : p = e := eq_of_mem_fst hu hpc he hpe
  rwa [this] at hp

theorem key_oldest_disjoint {α : Type} (c1 : Cache α) (hu : keys_unique c1)
    {a : String} (ha : a ∈ oldest_keys c1)
    (hb : a ∈ ((c1.mergeSort by_age).drop 10).map Prod.fst) : False := by
  have hnod : ((c1.mergeSort by_age).map Prod.fst).Nodup :=
    (((List.mergeSort_perm c1 by_age).map Prod.fst).nodup_iff).mpr hu
  rw [← List.take_append_drop 10 (c1.mergeSort by_age), List.map_append] at hnod
  exact (List.nodup_append.mp hnod).2.2 ha hb

theorem kept_mem_drop {α : Type} (c1 : Cache α) (hu : keys_unique c1)
    {e : String × CacheItem α} (he : e ∈ c1) (hk : e.1 ∉ oldest_keys c1) :
    e ∈ (c1.mergeSort by_age).drop 10 := by
  have hs : e ∈ c1.mergeSort by_age := (List.mergeSort_perm c1 by_age).mem_iff.mpr he
  rw [← List.take_append_drop 10 (c1.mergeSort by_age)] at hs
  rcases List.mem_append.mp hs with h | h
  · exact absurd (List.mem_map_of_mem Prod.fst h) hk
  · exact h

theorem evicted_le_kept {α : Type} (c1 : Cache α) (hu : keys_unique c1)
    {e e' : String × CacheItem α} (he : e ∈ c1) (he' : e' ∈ c1)
    (hev : e.1 ∈ oldest_keys c1) (hkp : e'.1 ∉ oldest_keys c1) :
    e.2.cached_at ≤ e'.2.cached_at := by
  have hetake := mem_take_of_key_oldest c1 hu he hev
  have hedrop := kept_mem_drop c1 hu he' hkp
  have hp := sorted_by_age c1
  rw [← List.take_append_drop 10 (c1.mergeSort by_age)] at hp
  exact (by_age_le _ _).mp ((List.pairwise_append.mp hp).2.2 e hetake e' hedrop)

theorem new_key_not_evicted {α : Type} (c1 : Cache α) (k : String) (it : CacheItem α)
    (hu : keys_unique c1) (hmem : (k, it) ∈ c1)
    (hold : ∀ e ∈ c1, e.1 ≠ k → e.2.cached_at < it.cached_at)
    (hlen : 100 < c1.length) :
    k ∉ oldest_keys c1 := by
  intro hk
  have hslen : (c1.mergeSort by_age).length = c1.length :=
    (List.mergeSort_perm c1 by_age).length_eq
  have hdlen : 0 < ((c1.mergeSort by_age).drop 10).length := by
    rw [List.length_drop, hslen]
    omega
  obtain ⟨y, hy⟩ := List.exists_mem_of_length_pos hdlen
  have hyc : y ∈ c1 :=
    (List.mergeSort_perm c1 by_age).mem_iff.mp (List.mem_of_mem_drop hy)
  have hyne : y.1 ≠ k := by
    intro he
    exact key_oldest_disjoint c1 hu hk (he ▸ List.mem_map_of_mem Prod.fst hy)
  have hlt : y.2.cached_at < it.cached_at := hold y hyc hyne
  have hktake : (k, it) ∈ (c1.mergeSort by_age).take 10 :=
    mem_take_of_key_oldest c1 hu hmem hk
  have hp := sorted_by_age c1
  rw [← List.take_append_drop 10 (c1.mergeSort by_age)] at hp
  have hle := (by_age_le _ _).mp ((List.pairwise_append.mp hp).2.2 (k, it) hktake y hy)
  simp only at hle
  omega

theorem evict_filter_length {α : Type} (c1 : Cache α) (hu : keys_unique c1)
    (hlen : 100 < c1.length) :
    (c1.filter (fun e => decide (e.1 ∉ oldest_keys c1))).length = c1.length - 10 := by
  rw [← List.countP_eq_length_filter]
  rw [(List.Perm.countP_eq _ (List.mergeSort_perm c1 by_age)).symm]
  rw [← List.take_append_drop 10 (c1.mergeSort by_age), List.countP_append]
  have htake : List.countP (fun e => decide (e.1 ∉ oldest_keys c1))
      ((c1.mergeSort by_age).take 10) = 0 := by
    rw [List.countP_eq_zero]
    intro e he
    simp only [decide_eq_true_eq, Decidable.not_not]
    exact List.mem_map_of_mem Prod.fst he
  have hdrop : List.countP (fun e => decide (e.1 ∉ oldest_keys c1))
      ((c1.mergeSort by_age).drop 10) = ((c1.mergeSort by_age).drop 10).length := by
    rw [List.countP_eq_length]
    intro e he
    simp only [decide_eq_true_eq]
    intro hmem
    exact key_oldest_disjoint c1 hu hmem (List.mem_map_of_mem Prod.fst he)
  rw [htake, hdrop, List.length_drop, (List.mergeSort_perm c1 by_age).length_eq]
  omega

theorem lookup_after_add {α : Type} (c : Cache α) (k : String) (v : α) (t : ℤ)
    (hu : keys_unique c) (hold : ∀ e ∈ c, e.2.cached_at < t) :
    dict_lookup (add_to_cache c k v t) k = some ⟨v, t⟩ := by
  have hu1 : keys_unique (dict_insert c k ⟨v, t⟩) := keys_unique_insert k ⟨v, t⟩ hu
  have hmem : (k, (⟨v, t⟩ : CacheItem α)) ∈ dict_insert c k ⟨v, t⟩ :=
    dict_lookup_mem (dict_lookup_insert c k ⟨v, t⟩)
  have hold1 : ∀ e ∈ dict_insert c k ⟨v, t⟩, e.1 ≠ k →
      e.2.cached_at < (⟨v, t⟩ : CacheItem α).cached_at := by
    intro e he hne
    rcases mem_dict_insert he with rfl | hec
    · exact absurd rfl hne
    · exact hold e hec
  by_cases hlen : 100 < (dict_insert c k ⟨v, t⟩).length
  · simp only [add_to_cache, if_pos hlen]
    apply mem_lookup_unique (keys_unique_sublist (List.filter_sublist _) hu1)
    rw [List.mem_filter]
    refine ⟨hmem, ?_⟩
    simp only [decide_eq_true_eq]
    exact new_key_not_evicted _ k ⟨v, t⟩ hu1 hmem hold1 hlen
  · simp only [add_to_cache, if_neg hlen]
    exact dict_lookup_insert c k ⟨v, t⟩

/-- C5: after `_add_to_cache` stores a value under key `k` at time `t`
(into a dict with unique keys whose entries are strictly older than `t`,
as produced by a monotone clock), `_get_from_cache` at time `now` returns
the stored value when `now - t` is strictly below the TTL
`duration * 3600` seconds, and returns a miss once at least that much time
has elapsed; the expired entry is not deleted by the get (which only reads
the dict): it remains physically present in the cache. -/
theorem c5_cache_ttl (α : Type) (c : Cache α) (k : String) (v : α)
    (t now d : ℤ) (hu : keys_unique c) (hold : ∀ e ∈ c, e.2.cached_at < t) :
    (now - t < d * 3600 →
      get_from_cache (add_to_cache c k v t) d now k = some v) ∧
    (d * 3600 ≤ now - t →
      get_from_cache (add_to_cache c k v t) d now k = none ∧
      dict_lookup (add_to_cache c k v t) k = some ⟨v, t⟩) := by
  have hlk := lookup_after_add c k v t hu hold
  constructor
  · intro hfresh
    simp [get_from_cache, hlk, if_pos hfresh]
  · intro hstale
    refine ⟨?_, hlk⟩
    simp [get_from_cache, hlk, if_neg (not_lt.mpr hstale)]

/-- C5 witness: the TTL theorem applied to a put on the empty cache with
the default 24-hour TTL, read back one hour later (hit) and exactly 24
hours later (miss, entry still present). -/
theorem c5_cache_ttl_witness :
    get_from_cache (add_to_cache ([] : Cache Nat) "k" 7 0) 24 3600 "k" = some 7 ∧
    get_from_cache (add_to_cache ([] : Cache Nat) "k" 7 0) 24 86400 "k" = none ∧
    dict_lookup (add_to_cache ([] : Cache Nat) "k" 7 0) "k" = some ⟨7, 0⟩ := by
  have h1 := (c5_cache_ttl Nat [] "k" 7 0 3600 24 (by simp [keys_unique, cache_keys])
    (by intro e he; exact absurd he (List.not_mem_nil _))).1 (by decide)
  have h2 := (c5_cache_ttl Nat [] "k" 7 0 86400 24 (by simp [keys_unique, cache_keys])
    (by intro e he; exact absurd he (List.not_mem_nil _))).2 (by decide)
  exact ⟨h1, h2.1, h2.2⟩

/-- C6: a put always inserts or overwrites. First conjunct: starting from
a cache with unique keys holding at most 100 entries, the cache still
holds at most 100 entries (and unique keys) after every put — the batch
eviction runs inside the same call. Second conjunct: inserting a 101st
distinct key at a fresh time removes exactly 10 entries (101 down to 91),
keeps the new entry, and every removed entry is at most as recent as every
surviving one — the 10 oldest by creation time are the ones evicted. -/
theorem c6_put_eviction (α : Type) :
    (∀ (c : Cache α) (k : String) (v : α) (t : ℤ),
        keys_unique c → c.length ≤ 100 →
        (add_to_cache c k v t).length ≤ 100 ∧ keys_unique (add_to_cache c k v t)) ∧
    (∀ (c : Cache α) (k : String) (v : α) (t : ℤ),
        keys_unique c → c.length = 100 → k ∉ cache_keys c →
        (∀ e ∈ c, e.2.cached_at < t) →
        (add_to_cache c k v t).length = 91 ∧
        dict_lookup (add_to_cache c k v t) k = some ⟨v, t⟩ ∧
        (∀ e ∈ dict_insert c k ⟨v, t⟩, e ∉ add_to_cache c k v t →
          ∀ e' ∈ add_to_cache c k v t, e.2.cached_at ≤ e'.2.cached_at)) := by
  constructor
  · intro c k v t hu hle
    have hu1 := keys_unique_insert k (⟨v, t⟩ : CacheItem α) hu
    have hlen1 : (dict_insert c k (⟨v, t⟩ : CacheItem α)).length ≤ 101 :=
      le_trans (length_dict_insert_le c k _) (by omega)
    by_cases hlen : 100 < (dict_insert c k (⟨v, t⟩ : CacheItem α)).length
    · refine ⟨?_, ?_⟩
      · simp only [add_to_cache, if_pos hlen]
        rw [evict_filter_length _ hu1 hlen]
        omega
      · simp only [add_to_cache, if_pos hlen]
        exact keys_unique_sublist (List.filter_sublist _) hu1
    · refine ⟨?_, ?_⟩
      · simp only [add_to_cache, if_neg hlen]
        omega
      · simp only [add_to_cache, if_neg hlen]
        exact hu1
  · intro c k v t hu hlen hk hold
    have hins : dict_insert c k (⟨v, t⟩ : CacheItem α) = c ++ [(k, ⟨v, t⟩)] :=
      dict_insert_of_not_mem _ hk
    have hlen1 : (dict_insert c k (⟨v, t⟩ : CacheItem α)).length = 101 := by
      rw [hins]
      simp [hlen]
    have hgt : 100 < (dict_insert c k (⟨v, t⟩ : CacheItem α)).length := by omega
    have hu1 := keys_unique_insert k (⟨v, t⟩ : CacheItem α) hu
    refine ⟨?_, lookup_after_add c k v t hu hold, ?_⟩
    · simp only [add_to_cache, if_pos hgt]
      rw [evict_filter_length _ hu1 hgt, hlen1]
    · intro e he hnotin e' he'
      have hres : add_to_cache c k v t =
          (dict_insert c k ⟨v, t⟩).filter
            (fun e => decide (e.1 ∉ oldest_keys (dict_insert c k ⟨v, t⟩))) := by
        simp only [add_to_cache, if_pos hgt]
      rw [hres] at hnotin he'
      have hev : e.1 ∈ oldest_keys (dict_insert c k ⟨v, t⟩) := by
        by_contra hno
        exact hnotin (List.mem_filter.mpr ⟨he, by simpa using hno⟩)
      have he'c : e' ∈ dict_insert c k (⟨v, t⟩ : CacheItem α) := (List.mem_filter.mp he').1
      have hkp : e'.1 ∉ oldest_keys (dict_insert c k ⟨v, t⟩) := by
        have := (List.mem_filter.mp he').2
        simpa using this
      exact evicted_le_kept _ hu1 he he'c hev hkp

/-- Concrete 100-entry cache (distinct keys, strictly increasing creation
times) used to instantiate the eviction theorem. -/
def big_cache : Cache Nat :=
  (List.range 100).map (fun i => (String.mk (List.replicate i 'a'), ⟨0, (i : ℤ)⟩))

theorem big_cache_keys_unique : keys_unique big_cache := by
  have hkeys : cache_keys big_cache =
      (List.range 100).map (fun i => String.mk (List.replicate i 'a')) := by
    simp [big_cache, cache_keys, List.map_map]
  rw [keys_unique, hkeys]
  refine List.Nodup.map ?_ (List.nodup_range 100)
  intro i j h
  have := congrArg (fun s => s.data.length) h
  simpa using this

/-- C6 witness: the eviction theorem applied to a concrete full cache of
100 distinct keys, inserting a 101st key at a fresh time. -/
theorem c6_put_eviction_witness :
    (add_to_cache big_cache "new" 0 100).length = 91 ∧
    dict_lookup (add_to_cache big_cache "new" 0 100) "new" = some ⟨0, 100⟩ := by
  have h := (c6_put_eviction Nat).2 big_cache "new" 0 100
    big_cache_keys_unique (by decide) (by decide) (by decide)
  exact ⟨h.1, h.2.1⟩

/-- Decimal digit character, digits above 9 never occur at call sites. -/
def digit_char (d : Nat) : Char :=
  match d with
  | 0 => '0' | 1 => '1' | 2 => '2' | 3 => '3' | 4 => '4'
  | 5 => '5' | 6 => '6' | 7 => '7' | 8 => '8' | _ => '9'

theorem digit_char_inj : ∀ a < 10, ∀ b < 10, digit_char a = digit_char b → a = b := by
  decide

/-- Little-endian decimal digits of a natural number. -/
def nat_digits_rev (n : Nat) : List Char :=
  if n < 10 then [digit_char n]
  else digit_char (n % 10) :: nat_digits_rev (n / 10)
termination_by n
decreasing_by exact Nat.div_lt_self (by omega) (by decide)

theorem nat_digits_rev_ne_nil (n : Nat) : nat_digits_rev n ≠ [] := by
  rw [nat_digits_rev]
  split <;> simp

theorem nat_digits_rev_eq (n : Nat) :
    nat_digits_rev n =
      if n < 10 then [digit_char n]
      else digit_char (n % 10) :: nat_digits_rev (n / 10) := by
  rw [nat_digits_rev]

theorem nat_digits_rev_inj : ∀ m n : Nat, nat_digits_rev m = nat_digits_rev n → m = n := by
  intro m
  induction m using Nat.strong_induction_on with
  | _ m ih =>
    intro n h
    rw [nat_digits_rev_eq m, nat_digits_rev_eq n] at h
    by_cases hm : m < 10 <;> by_cases hn : n < 10
    · rw [if_pos hm, if_pos hn] at h
      exact digit_char_inj m hm n hn (by simpa using h)
    · rw [if_pos hm, if_neg hn] at h
      simp only [List.cons.injEq] at h
      exact absurd h.2.symm (nat_digits_rev_ne_nil (n / 10))
    · rw [if_neg hm, if_pos hn] at h
      simp only [List.cons.injEq] at h
      exact absurd h.2 (nat_digits_rev_ne_nil (m / 10))
    · rw [if_neg hm, if_neg hn] at h
      simp only [List.cons.injEq] at h
      have h1 : m % 10 = n % 10 :=
        digit_char_inj _ (Nat.mod_lt _ (by omega)) _ (Nat.mod_lt _ (by omega)) h.1
      have h2 : m / 10 = n / 10 :=
        ih (m / 10) (Nat.div_lt_self (by omega) (by decide)) (n / 10) h.2
      omega

/-- Python `str(n)` for a non-negative integer. -/
def nat_repr (n : Nat) : String :=
  String.mk (nat_digits_rev n).reverse

theorem nat_repr_inj {m n : Nat} (h : nat_repr m = nat_repr n) : m = n := by
  apply nat_digits_rev_inj
  have hd := congrArg String.data h
  simp only [nat_repr] at hd
  exact List.reverse_injective hd

theorem nat_repr_ne_empty (n : Nat) : nat_repr n ≠ "" := by
  intro h
  have hd := congrArg String.data h
  simp only [nat_repr] at hd
  have : nat_digits_rev n = [] := by
    have := List.reverse_eq_nil_iff.mp (by simpa using hd)
    exact this
  exact nat_digits_rev_ne_nil n this

/-- Python `str(n)` for an integer. -/
def int_repr (n : ℤ) : String :=
  if n < 0 then "-" ++ nat_repr (-n).toNat else nat_repr n.toNat

/-- Mirror of the f-string fragment `{x or ''}` for an optional integer:
both a missing value and a falsy (zero) value serialize to the empty
string. -/
def falsy_int_str : Option ℤ → String
  | none => ""
  | some n => if n = 0 then "" else int_repr n

/-- An optional integer whose serialization is not degenerate: absent or
strictly positive. -/
def nonfalsy (x : Option ℤ) : Prop :=
  ∀ n, x = some n → 0 < n

theorem falsy_int_str_inj {x y : Option ℤ} (hx : nonfalsy x) (hy : nonfalsy y)
    (h : falsy_int_str x = falsy_int_str y) : x = y := by
  cases x with
  | none =>
    cases y with
    | none => rfl
    | some n =>
      have hn : 0 < n := hy n rfl
      rw [falsy_int_str, falsy_int_str, if_neg (by omega), int_repr,
        if_neg (by omega)] at h
      exact absurd h.symm (nat_repr_ne_empty n.toNat)
  | some m =>
    have hm : 0 < m := hx m rfl
    cases y with
    | none =>
      rw [falsy_int_str, falsy_int_str, if_neg (by omega), int_repr,
        if_neg (by omega)] at h
      exact absurd h (nat_repr_ne_empty m.toNat)
    | some n =>
      have hn : 0 < n := hy n rfl
      rw [falsy_int_str, falsy_int_str, if_neg (by omega), if_neg (by omega),
        int_repr, int_repr, if_neg (by omega), if_neg (by omega)] at h
      have h2 := nat_repr_inj h
      have h3 : m = n := by
        have := congrArg (fun k : Nat => (k : ℤ)) h2
        simpa [Int.toNat_of_nonneg (le_of_lt hm), Int.toNat_of_nonneg (le_of_lt hn)]
          using this
      rw [h3]

/-- Python `sorted` on strings (lexicographic; stability is irrelevant for
strings compared by equality). -/
def sort_strings (l : List String) : List String :=
  l.mergeSort (fun a b => decide (a ≤ b))

/-- Python `"-".join(l)`. -/
def join_hyphen : List String → String
  | [] => ""
  | [s] => s
  | s :: rest => s ++ "-" ++ join_hyphen rest

/-- Mirror of `LiteratureSearcher._generate_cache_key`: the `"|"`-join of
the f-string fragments, written as one concatenation. -/
def gen_cache_key (query : String) (maxResults : Nat)
    (fromYear toYear minCitations : Option ℤ)
    (pubTypes : Option (List String)) (openAccessOnly : Bool) : String :=
  "q=" ++ query ++ "|max=" ++ nat_repr maxResults ++
  "|from=" ++ falsy_int_str fromYear ++ "|to=" ++ falsy_int_str toYear ++
  "|min_cite=" ++ falsy_int_str minCitations ++
  "|types=" ++ join_hyphen (sort_strings (pubTypes.getD [])) ++
  "|oa=" ++ (if openAccessOnly then "yes" else "no")

theorem sep_split {A B r1 r2 : List Char} (hA : '-' ∉ A) (hB : '-' ∉ B)
    (h : A ++ '-' :: r1 = B ++ '-' :: r2) : A = B ∧ r1 = r2 := by
  induction A generalizing B with
  | nil =>
    cases B with
    | nil => simpa using h
    | cons b B' =>
      simp only [List.nil_append, List.cons_append, List.cons.injEq] at h
      simp only [List.mem_cons, not_or] at hB
      exact absurd h.1 hB.1
  | cons a A' ih =>
    cases B with
    | nil =>
      simp only [List.cons_append, List.nil_append, List.cons.injEq] at h
      simp only [List.mem_cons, not_or] at hA
      exact absurd h.1.symm hA.1
    | cons b B' =>
      simp only [List.cons_append, List.cons.injEq] at h
      have := ih (by simp at hA; exact hA.2) (by simp at hB; exact hB.2) h.2
      exact ⟨by rw [h.1, this.1], this.2⟩

theorem empty_data : ("" : String).data = [] := rfl

theorem hyphen_data : ("-" : String).data = ['-'] := rfl

theorem join_hyphen_inj : ∀ l1 l2 : List String,
    (∀ s ∈ l1, s ≠ "" ∧ '-' ∉ s.data) → (∀ s ∈ l2, s ≠ "" ∧ '-' ∉ s.data) →
    join_hyphen l1 = join_hyphen l2 → l1 = l2 := by
  intro l1
  induction l1 with
  | nil =>
    intro l2 h1 h2 h
    cases l2 with
    | nil => rfl
    | cons b t2 =>
      cases t2 with
      | nil => exact absurd h.symm (h2 b (List.mem_cons_self _ _)).1
      | cons c t =>
        have hd := congrArg String.data h
        simp only [join_hyphen, String.data_append, hyphen_data, empty_data] at hd
        simp at hd
  | cons a t1 ih =>
    intro l2 h1 h2 h
    cases t1 with
    | nil =>
      cases l2 with
      | nil =>
        simp only [join_hyphen] at h
        exact absurd h (h1 a (List.mem_cons_self _ _)).1
      | cons b t2 =>
        cases t2 with
        | nil =>
          simp only [join_hyphen] at h
          rw [h]
        | cons c t =>
          have hd := congrArg String.data h
          simp only [join_hyphen, String.data_append, hyphen_data] at hd
          have hmem : '-' ∈ a.data := by
            rw [hd]
            simp
          exact absurd hmem (h1 a (List.mem_cons_self _ _)).2
    | cons a' t1' =>
      cases l2 with
      | nil =>
        have hd := congrArg String.data h
        simp only [join_hyphen, String.data_append, hyphen_data, empty_data] at hd
        simp at hd
      | cons b t2 =>
        cases t2 with
        | nil =>
          have hd := congrArg String.data h
          simp only [join_hyphen, String.data_append, hyphen_data] at hd
          have hmem : '-' ∈ b.data := by
            rw [← hd]
            simp
          exact absurd hmem (h2 b (List.mem_cons_self _ _)).2
        | cons c t =>
          have hd := congrArg String.data h
          simp only [join_hyphen, String.data_append, hyphen_data] at hd
          rw [List.append_assoc, List.append_assoc, List.singleton_append,
            List.singleton_append] at hd
          have hsp := sep_split (h1 a (List.mem_cons_self _ _)).2
            (h2 b (List.mem_cons_self _ _)).2 hd
          have ha : a = b := String.ext hsp.1
          have ht := ih (c :: t) (fun s hs => h1 s (List.mem_cons_of_mem _ hs))
            (fun s hs => h2 s (List.mem_cons_of_mem _ hs)) (String.ext hsp.2)
          rw [ha, ht]

/-- C8 counterexample: the claim says two parameter tuples that differ in
any component never map to the same cache key. The f-string writes
`{min_citations or ''}`, so a minimum-citation count of 0 and an absent
one serialize identically: these two different tuples share one key. -/
theorem c8_counterexample_falsy_min_citations :
    gen_cache_key "ai" 10 none none (some 0) none false =
      gen_cache_key "ai" 10 none none none none false ∧
    (some (0 : ℤ)) ≠ (none : Option ℤ) := by
  exact ⟨rfl, by simp⟩

/-- C8 (amended): the key is a deterministic function of the parameter
tuple, and changing a single component changes the key, except for the
falsy serializations exposed by the counterexample: years and minimum
citations must be absent-or-positive (0 collides with None), and the
publication-type lists are compared as sorted lists of non-empty,
hyphen-free entries (otherwise e.g. ["a-b"] and ["a","b"] collide, and
None collides with []). Under those provisos each component is injective:
query, max results, from-year, to-year, minimum citations,
publication-type list up to ordering, and the open-access flag. -/
theorem c8_cache_key_componentwise :
    (∀ (q q' : String) (m : Nat) (fy ty mc : Option ℤ)
        (pt : Option (List String)) (oa : Bool), q ≠ q' →
        gen_cache_key q m fy ty mc pt oa ≠ gen_cache_key q' m fy ty mc pt oa) ∧
    (∀ (q : String) (m m' : Nat) (fy ty mc : Option ℤ)
        (pt : Option (List String)) (oa : Bool), m ≠ m' →
        gen_cache_key q m fy ty mc pt oa ≠ gen_cache_key q m' fy ty mc pt oa) ∧
    (∀ (q : String) (m : Nat) (fy fy' ty mc : Option ℤ)
        (pt : Option (List String)) (oa : Bool),
        nonfalsy fy → nonfalsy fy' → fy ≠ fy' →
        gen_cache_key q m fy ty mc pt oa ≠ gen_cache_key q m fy' ty mc pt oa) ∧
    (∀ (q : String) (m : Nat) (fy ty ty' mc : Option ℤ)
        (pt : Option (List String)) (oa : Bool),
        nonfalsy ty → nonfalsy ty' → ty ≠ ty' →
        gen_cache_key q m fy ty mc pt oa ≠ gen_cache_key q m fy ty' mc pt oa) ∧
    (∀ (q : String) (m : Nat) (fy ty mc mc' : Option ℤ)
        (pt : Option (List String)) (oa : Bool),
        nonfalsy mc → nonfalsy mc' → mc ≠ mc' →
        gen_cache_key q m fy ty mc pt oa ≠ gen_cache_key q m fy ty mc' pt oa) ∧
    (∀ (q : String) (m : Nat) (fy ty mc : Option ℤ) (l l' : List String)
        (oa : Bool),
        (∀ s ∈ l, s ≠ "" ∧ '-' ∉ s.data) → (∀ s ∈ l', s ≠ "" ∧ '-' ∉ s.data) →
        sort_strings l ≠ sort_strings l' →
        gen_cache_key q m fy ty mc (some l) oa ≠
          gen_cache_key q m fy ty mc (some l') oa) ∧
    (∀ (q : String) (m : Nat) (fy ty mc : Option ℤ)
        (pt : Option (List String)) (oa oa' : Bool), oa ≠ oa' →
        gen_cache_key q m fy ty mc pt oa ≠ gen_cache_key q m fy ty mc pt oa') := by
  refine ⟨?_, ?_, ?_, ?_, ?_, ?_, ?_⟩
  · intro q q' m fy ty mc pt oa hne heq
    apply hne
    have hd := congrArg String.data heq
    simp only [gen_cache_key, String.data_append, List.append_assoc] at hd
    replace hd := List.append_cancel_left hd
    exact String.ext (List.append_cancel_right hd)
  · intro q m m' fy ty mc pt oa hne heq
    apply hne
    have hd := congrArg String.data heq
    simp only [gen_cache_key, String.data_append, List.append_assoc] at hd
    replace hd := List.append_cancel_left hd
    replace hd := List.append_cancel_left hd
    replace hd := List.append_cancel_left hd
    exact nat_repr_inj (String.ext (List.append_cancel_right hd))
  · intro q m fy fy' ty mc pt oa hf hf' hne heq
    apply hne
    have hd := congrArg String.data heq
    simp only [gen_cache_key, String.data_append, List.append_assoc] at hd
    replace hd := List.append_cancel_left hd
    replace hd := List.append_cancel_left hd
    replace hd := List.append_cancel_left hd
    replace hd := List.append_cancel_left hd
    replace hd := List.append_cancel_left hd
    exact falsy_int_str_inj hf hf' (String.ext (List.append_cancel_right hd))
  · intro q m fy ty ty' mc pt oa hf hf' hne heq
    apply hne
    have hd := congrArg String.data heq
    simp only [gen_cache_key, String.data_append, List.append_assoc] at hd
    replace hd := List.append_cancel_left hd
    replace hd := List.append_cancel_left hd
    replace hd := List.append_cancel_left hd
    replace hd := List.append_cancel_left hd
    replace hd := List.append_cancel_left hd
    replace hd := List.append_cancel_left hd
    replace hd := List.append_cancel_left hd
    exact falsy_int_str_inj hf hf' (String.ext (List.append_cancel_right hd))
  · intro q m fy ty mc mc' pt oa hf hf' hne heq
    apply hne
    have hd := congrArg String.data heq
    simp only [gen_cache_key, String.data_append, List.append_assoc] at hd
    replace hd := List.append_cancel_left hd
    replace hd := List.append_cancel_left hd
    replace hd := List.append_cancel_left hd
    replace hd := List.append_cancel_left hd
    replace hd := List.append_cancel_left hd
    replace hd := List.append_cancel_left hd
    replace hd := List.append_cancel_left hd
    replace hd := List.append_cancel_left hd
    replace hd := List.append_cancel_left hd
    exact falsy_int_str_inj hf hf' (String.ext (List.append_cancel_right hd))
  · intro q m fy ty mc l l' oa hl hl' hne heq
    apply hne
    have hd := congrArg String.data heq
    simp only [gen_cache_key, String.data_append, List.append_assoc,
      Option.getD_some] at hd
    replace hd := List.append_cancel_left hd
    replace hd := List.append_cancel_left hd
    replace hd := List.append_cancel_left hd
    replace hd := List.append_cancel_left hd
    replace hd := List.append_cancel_left hd
    replace hd := List.append_cancel_left hd
    replace hd := List.append_cancel_left hd
    replace hd := List.append_cancel_left hd
    replace hd := List.append_cancel_left hd
    replace hd := List.append_cancel_left hd
    replace hd := List.append_cancel_left hd
    refine join_hyphen_inj (sort_strings l) (sort_strings l') ?_ ?_
      (String.ext (List.append_cancel_right hd))
    · intro s hs
      exact hl s ((List.mergeSort_perm l _).mem_iff.mp hs)
    · intro s hs
      exact hl' s ((List.mergeSort_perm l' _).mem_iff.mp hs)
  · intro q m fy ty mc pt oa oa' hne heq
    have hd := congrArg String.data heq
    simp only [gen_cache_key, String.data_append, List.append_assoc] at hd
    replace hd := List.append_cancel_left hd
    replace hd := List.append_cancel_left hd
    replace hd := List.append_cancel_left hd
    replace hd := List.append_cancel_left hd
    replace hd := List.append_cancel_left hd
    replace hd := List.append_cancel_left hd
    replace hd := List.append_cancel_left hd
    replace hd := List.append_cancel_left hd
    replace hd := List.append_cancel_left hd
    replace hd := List.append_cancel_left hd
    replace hd := List.append_cancel_left hd
    replace hd := List.append_cancel_left hd
    replace hd := List.append_cancel_left hd
    cases oa <;> cases oa' <;> simp_all

/-- C8 witness: the componentwise injectivity theorem applied at two
concrete queries. -/
theorem c8_cache_key_componentwise_witness :
    gen_cache_key "a" 10 none none none none false ≠
      gen_cache_key "b" 10 none none none none false :=
  c8_cache_key_componentwise.1 "a" "b" 10 none none none none false (by decide)

/-- The structured query produced by the query-structuring collaborator:
the three term lists read by the searchers (an absent key defaults to the
empty list; the optional expansion keys are irrelevant to every claim). -/
structure StructuredQuery where
  research_areas : List String
  expertise : List String
  search_keywords : List String

/-- The Python set of lower-cased query terms built by both searchers
from the three lists, modelled as a deduplicated list. -/
def query_terms_of (sq : StructuredQuery) : List String :=
  ((sq.research_areas ++ sq.expertise ++ sq.search_keywords).map py_lower).dedup

/-- Mirror of `ArticleSearcher._extract_search_terms`: concatenate the
three lists in order. -/
def as_extract_search_terms (sq : StructuredQuery) : List String :=
  sq.research_areas ++ sq.expertise ++ sq.search_keywords

/-- Mirror of the `ResearchArticle` dataclass (the keyword set is a
deduplicated list). -/
structure ResearchArticle where
  id : String
  title : String
  authors : List String
  publication_date : String
  journal : Option String
  citation_count : Nat
  abstract : Option String
  keywords : List String
  relevance_score : ℚ

/-- Mirror of `ArticleSearcher._convert_work_to_article`; `pyhash` is the
process-salted Python `hash` on strings, passed as an oracle. Note the
relevance here counts keywords contained in by a query term in one
direction only, with no citation factor (unlike the literature searcher). -/
def convert_work_to_article (pyhash : String → ℤ) (w : WorkResult)
    (queryTerms : List String) : ResearchArticle :=
  let keywords :=
    ((if w.title ≠ "" then extract_terms w.title else []) ++
     (match w.abstract with
      | some a => if a ≠ "" then extract_terms a else []
      | none => [])).dedup
  let relevance : ℚ :=
    if queryTerms ≠ [] then
      min 1 (((keywords.filter
        (fun term => queryTerms.any (fun qt => py_in qt term))).length : ℚ) /
        (queryTerms.length : ℚ))
    else 0
  { id := match w.doi with
      | some d => "https://doi.org/" ++ d
      | none => "article:" ++ int_repr (pyhash w.title)
    title := w.title
    authors := w.authors
    publication_date := w.publication_date
    journal := none
    citation_count := w.citations
    abstract := w.abstract
    keywords := keywords
    relevance_score := relevance }

/-- Descending sort order on `(relevance_score, citation_count)` used by
`search_articles` (`reverse=True`, stable). -/
def article_desc (a b : ResearchArticle) : Bool :=
  decide (b.relevance_score < a.relevance_score ∨
    (b.relevance_score = a.relevance_score ∧ b.citation_count ≤ a.citation_count))

/-- Mirror of `ArticleSearcher.search_articles`. The year and citation
filters only shape the upstream request and are absorbed by the `up`
oracle. The first component is `none` when the call raises (which happens
when `_make_request` returns `None` and `response.error` is accessed —
this method has no exception handler); the second component counts HTTP
requests issued. -/
def search_articles (pyhash : String → ℤ) (sq : StructuredQuery)
    (up : Nat → Upstream) (maxResults : Nat) :
    Option (List ResearchArticle) × Nat :=
  let search_query := join_space (as_extract_search_terms sq)
  if py_strip search_query = "" then (some [], 0)
  else
    let r := make_request up 3 1
    match r.2 with
    | none => (none, r.1.requests)
    | some resp =>
      if resp.error.getD "" ≠ "" then (some [], r.1.requests)
      else
        let articles := resp.get_works.map
          (fun w => convert_work_to_article pyhash w (query_terms_of sq))
        (some ((articles.mergeSort article_desc).take maxResults), r.1.requests)

/-- Mirror of the `LiteratureSearchResult` dataclass (the `analysis`
field, filled by the out-of-scope language-model analyzer, is omitted). -/
structure LiteratureSearchResult where
  id : String
  title : String
  authors : List String
  publication_date : Option String
  journal : Option String
  abstract : Option String
  doi : Option String
  citations : Nat
  open_access : Bool
  type : String
  topic_matches : List (String × ℚ)
  relevance_score : ℚ
  url : Option String

/-- Mirror of `LiteratureSearcher._determine_publication_type`: preprint
on a falsy DOI. -/
def determine_publication_type (w : WorkResult) : String :=
  match w.doi with
  | none => "preprint"
  | some d => if d = "" then "preprint" else "journal-article"

/-- Mirror of `LiteratureSearcher._process_work_results`: filter by
publication type (only when the list is truthy) and by open access (a
non-None DOI), then score each surviving work. -/
def process_work_results (pyhash : String → ℤ) (works : List WorkResult)
    (sq : StructuredQuery) (pubTypes : Option (List String)) (oaOnly : Bool) :
    List LiteratureSearchResult :=
  let qts := query_terms_of sq
  works.filterMap (fun w =>
    let work_type := determine_publication_type w
    if (match pubTypes with
        | some pts => !pts.isEmpty && !(pts.contains work_type)
        | none => false) then none
    else if oaOnly ∧ w.doi = none then none
    else
      let scored := calculate_relevance w qts
      some { id := match w.doi with
              | some d => d
              | none => "W" ++ nat_repr ((pyhash w.title % (4294967296 : ℤ)).toNat)
             title := w.title
             authors := w.authors
             publication_date := some w.publication_date
             journal := none
             abstract := w.abstract
             doi := w.doi
             citations := w.citations
             open_access := w.doi.isSome
             type := work_type
             topic_matches := scored.1
             relevance_score := scored.2
             url := match w.doi with
              | some d => some ("https://doi.org/" ++ d)
              | none => none })

/-- Descending sort order on `(relevance_score, citations)` used by
`LiteratureSearcher.search` (`reverse=True`, stable). -/
def lit_desc (a b : LiteratureSearchResult) : Bool :=
  decide (b.relevance_score < a.relevance_score ∨
    (b.relevance_score = a.relevance_score ∧ b.citations ≤ a.citations))

/-- The value stored in the result cache and returned by a search:
status plus the (possibly truncated) ranked result list. Metadata and
analysis payloads are irrelevant to every claim. -/
structure SearchValue where
  status : String
  results : List LiteratureSearchResult

/-- Mirror of the core of `LiteratureSearcher.search`, from the cache
check to the returned result: its value, the number of HTTP requests
issued, and the cache afterwards. `sq` is the structured query produced
by the query processor on a cache miss. Error results (including the
crash of `response.error` on a `None` response, absorbed by the
surrounding `except` handler) are never cached. -/
def lit_search (pyhash : String → ℤ) (cache : Cache SearchValue)
    (duration now : ℤ) (query : String) (maxResults : Nat)
    (fromYear toYear minCitations : Option ℤ) (pubTypes : Option (List String))
    (oaOnly : Bool) (sq : StructuredQuery) (up : Nat → Upstream) :
    SearchValue × Nat × Cache SearchValue :=
  let key := gen_cache_key query maxResults fromYear toYear minCitations pubTypes oaOnly
  match get_from_cache cache duration now key with
  | some v => (v, 0, cache)
  | none =>
    if sq.research_areas = [] ∧ sq.expertise = [] ∧ sq.search_keywords = [] then
      (⟨"error", []⟩, 0, cache)
    else
      let r := make_request up 3 1
      match r.2 with
      | none => (⟨"error", []⟩, r.1.requests, cache)
      | some resp =>
        if resp.error.getD "" ≠ "" then (⟨"error", []⟩, r.1.requests, cache)
        else
          let lits := process_work_results pyhash resp.get_works sq pubTypes oaOnly
          let value : SearchValue := ⟨"success", (lits.mergeSort lit_desc).take maxResults⟩
          (value, r.1.requests, add_to_cache cache key value now)

/-- C2: a structured query whose three term lists are all empty
short-circuits both search operations: the literature search (on a cache
miss, where the structured query is computed at all) returns an error
value with an empty result list, issuing zero HTTP requests and leaving
the cache untouched; the article search returns the empty list with zero
HTTP requests. -/
theorem c2_empty_query_short_circuits :
    (∀ (pyhash : String → ℤ) (cache : Cache SearchValue) (duration now : ℤ)
        (query : String) (maxResults : Nat) (fy ty mc : Option ℤ)
        (pt : Option (List String)) (oa : Bool) (sq : StructuredQuery)
        (up : Nat → Upstream),
        get_from_cache cache duration now
          (gen_cache_key query maxResults fy ty mc pt oa) = none →
        sq.research_areas = [] → sq.expertise = [] → sq.search_keywords = [] →
        (lit_search pyhash cache duration now query maxResults fy ty mc pt oa
            sq up).1.results = [] ∧
        (lit_search pyhash cache duration now query maxResults fy ty mc pt oa
            sq up).2.1 = 0 ∧
        (lit_search pyhash cache duration now query maxResults fy ty mc pt oa
            sq up).2.2 = cache) ∧
    (∀ (pyhash : String → ℤ) (sq : StructuredQuery) (up : Nat → Upstream)
        (maxResults : Nat),
        sq.research_areas = [] → sq.expertise = [] → sq.search_keywords = [] →
        search_articles pyhash sq up maxResults = (some [], 0)) := by
  constructor
  · intro pyhash cache duration now query maxResults fy ty mc pt oa sq up
      hmiss hra hex hkw
    simp [lit_search, hmiss, hra, hex, hkw]
  · intro pyhash sq up maxResults hra hex hkw
    rcases sq with ⟨ra, ex, kw⟩
    simp only at hra hex hkw
    subst hra hex hkw
    rfl

/-- C2 witness: the short-circuit theorem applied to the empty cache and
the all-empty structured query. -/
theorem c2_empty_query_short_circuits_witness :
    ((lit_search (fun _ => 0) [] 24 0 "anything" 10 none none none none false
        ⟨[], [], []⟩ (fun _ => Upstream.malformed)).1.results = [] ∧
     (lit_search (fun _ => 0) [] 24 0 "anything" 10 none none none none false
        ⟨[], [], []⟩ (fun _ => Upstream.malformed)).2.1 = 0 ∧
     (lit_search (fun _ => 0) [] 24 0 "anything" 10 none none none none false
        ⟨[], [], []⟩ (fun _ => Upstream.malformed)).2.2 = []) ∧
    search_articles (fun _ => 0) ⟨[], [], []⟩ (fun _ => Upstream.malformed) 10 =
      (some [], 0) := by
  exact ⟨c2_empty_query_short_circuits.1 (fun _ => 0) [] 24 0 "anything" 10
      none none none none false ⟨[], [], []⟩ (fun _ => Upstream.malformed)
      rfl rfl rfl rfl,
    c2_empty_query_short_circuits.2 (fun _ => 0) ⟨[], [], []⟩
      (fun _ => Upstream.malformed) 10 rfl rfl rfl⟩
